import Mathlib

/-!
Verification development for the ferricalc expression-language core
(scanner, recursive-descent parser, tree-walking evaluator, environment,
builtin math library, decimal formatter).

Numeric model: the source computes with `rug::Float` (MPFR binary floating
point with a 256-bit mantissa, `PREC_BITS`).  The embedding `MFloat` carries
finite values as exact rationals together with the IEEE/MPFR special values
(signed infinity, NaN).  Every finite computation exercised by a claim in
this development (small integer arithmetic, powers with small natural
exponents, decimal literals displayed at up to 16 significant digits) is
exactly representable at 256 bits, or has a 256-bit relative rounding error
(< 2^-200) far below the displayed digit count, so the exact-rational model
agrees with the source on every observation made here.  Transcendental
values (sin, irrational sqrt, fractional powers) are rounded reals in the
source; no claim observes them, and the embedding keeps them abstract
(returned as `nan`, with a comment at each site).
-/

/-! Kernel-computable rational arithmetic.  Batteries marks `Rat.add`,
`Rat.mul`, `Rat.sub`, `Rat.inv` and `Rat.div` `@[irreducible]`, which keeps
concrete evaluations from reducing inside proofs; the wrappers below are
the same operations expressed through `mkRat` / `Rat.divInt` (which do
reduce), and each is proved equal to the standard operation. -/

def qadd (a b : ℚ) : ℚ := mkRat (a.num * b.den + b.num * a.den) (a.den * b.den)

def qmul (a b : ℚ) : ℚ := mkRat (a.num * b.num) (a.den * b.den)

def qsub (a b : ℚ) : ℚ := qadd a (-b)

def qdiv (a b : ℚ) : ℚ := Rat.divInt (a.num * b.den) (a.den * b.num)

def qpow (a : ℚ) (n : ℕ) : ℚ := Rat.divInt (a.num ^ n) ((a.den : ℤ) ^ n)

def qinv (a : ℚ) : ℚ := Rat.divInt a.den a.num

theorem qadd_eq (a b : ℚ) : qadd a b = a + b := by
  rw [qadd, Rat.mkRat_eq_div]
  conv_rhs => rw [← Rat.num_div_den a, ← Rat.num_div_den b]
  have ha : (a.den : ℚ) ≠ 0 := by exact_mod_cast a.den_nz
  have hb : (b.den : ℚ) ≠ 0 := by exact_mod_cast b.den_nz
  push_cast
  field_simp

theorem qmul_eq (a b : ℚ) : qmul a b = a * b := by
  rw [qmul, Rat.mkRat_eq_div]
  conv_rhs => rw [← Rat.num_div_den a, ← Rat.num_div_den b]
  have ha : (a.den : ℚ) ≠ 0 := by exact_mod_cast a.den_nz
  have hb : (b.den : ℚ) ≠ 0 := by exact_mod_cast b.den_nz
  push_cast
  field_simp

theorem qsub_eq (a b : ℚ) : qsub a b = a - b := by
  rw [qsub, qadd_eq, sub_eq_add_neg]

theorem rat_inv_den_num (b : ℚ) : b⁻¹ = (b.den : ℚ) / (b.num : ℚ) := by
  conv_lhs => rw [← Rat.num_div_den b]
  rw [inv_div]

theorem qinv_eq (a : ℚ) : qinv a = a⁻¹ := by
  rw [qinv, Rat.divInt_eq_div, rat_inv_den_num]
  norm_cast

theorem qdiv_eq (a b : ℚ) : qdiv a b = a / b := by
  rw [qdiv, Rat.divInt_eq_div, div_eq_mul_inv a b, rat_inv_den_num]
  conv_rhs => rw [← Rat.num_div_den a]
  rw [div_mul_div_comm]
  push_cast
  ring

theorem qpow_eq (a : ℚ) (n : ℕ) : qpow a n = a ^ n := by
  rw [qpow, Rat.divInt_eq_div]
  have hd : (a.den : ℚ) ≠ 0 := by exact_mod_cast a.den_nz
  conv_rhs => rw [← Rat.num_div_den a]
  rw [div_pow]
  push_cast
  ring

/-- Model of `rug::Float` at 256 bits: finite rationals plus the IEEE
special values.  `inf true` is negative infinity. -/
inductive MFloat where
  | num (q : ℚ)
  | inf (neg : Bool)
  | nan
deriving DecidableEq

/-- Addition (`lhs + rhs` on `rug::Float`): exact on finite values,
IEEE rules on specials (opposite infinities give NaN). -/
def MFloat.add : MFloat → MFloat → MFloat
  | .nan, _ => .nan
  | _, .nan => .nan
  | .num a, .num b => .num (qadd a b)
  | .num _, .inf s => .inf s
  | .inf s, .num _ => .inf s
  | .inf s, .inf t => if s = t then .inf s else .nan

/-- Negation (`-rhs` on `rug::Float`). -/
def MFloat.neg : MFloat → MFloat
  | .num a => .num (-a)
  | .inf s => .inf (!s)
  | .nan => .nan

/-- Subtraction (`lhs - rhs` on `rug::Float`). -/
def MFloat.sub : MFloat → MFloat → MFloat
  | .nan, _ => .nan
  | _, .nan => .nan
  | .num a, .num b => .num (qsub a b)
  | .num _, .inf s => .inf (!s)
  | .inf s, .num _ => .inf s
  | .inf s, .inf t => if s = t then .nan else .inf s

/-- Multiplication (`lhs * rhs` on `rug::Float`): zero times infinity is NaN. -/
def MFloat.mul : MFloat → MFloat → MFloat
  | .nan, _ => .nan
  | _, .nan => .nan
  | .num a, .num b => .num (qmul a b)
  | .num a, .inf s => if a = 0 then .nan else .inf (xor (decide (a < 0)) s)
  | .inf s, .num a => if a = 0 then .nan else .inf (xor (decide (a < 0)) s)
  | .inf s, .inf t => .inf (xor s t)

/-- Division (`lhs / rhs` on `rug::Float`): a nonzero finite value divided by
zero is a signed infinity, zero divided by zero is NaN — MPFR division never
fails.  (The model has a single unsigned zero; MPFR's zero here is `+0`,
which is what every reachable computation in the claims produces.) -/
def MFloat.div : MFloat → MFloat → MFloat
  | .nan, _ => .nan
  | _, .nan => .nan
  | .num a, .num b =>
      if b = 0 then (if a = 0 then .nan else .inf (decide (a < 0)))
      else .num (qdiv a b)
  | .num _, .inf _ => .num 0
  | .inf s, .num b => .inf (xor s (decide (b < 0)))
  | .inf _, .inf _ => .nan

/-- Power (`lhs.pow(&rhs)`, MPFR `pow`).  Exact for finite bases with
integer exponents (the only case any claim evaluates).  MPFR special-value
rules: `pow(x, 0) = 1`, `pow(0, negative) = +inf`, negative base with a
non-integer exponent is NaN.  A positive base with a non-integer exponent is
a correctly-rounded transcendental in the source; no claim observes it and
it is kept abstract as `nan`. -/
def MFloat.pow : MFloat → MFloat → MFloat
  | a, .num q =>
      if q = 0 then .num 1
      else
        match a with
        | .nan => .nan
        | .inf aneg =>
            if 0 < q then .inf (aneg && decide (q.den = 1 ∧ q.num % 2 ≠ 0))
            else .num 0
        | .num x =>
            if q.den = 1 then
              if 0 ≤ q.num then .num (qpow x q.num.toNat)
              else if x = 0 then .inf false
              else .num (qinv (qpow x (-q.num).toNat))
            else if x < 0 then .nan
            else .nan
  | .nan, .inf _ => .nan
  | .num x, .inf bneg =>
      if x = 1 ∨ x = -1 then .num 1
      else if bneg then (if x < -1 ∨ 1 < x then .num 0 else .inf false)
      else (if x < -1 ∨ 1 < x then .inf false else .num 0)
  | .inf _, .inf bneg => if bneg then .num 0 else .inf false
  | a, .nan => if a = .num 1 then .num 1 else .nan

/-- Square root (`clone().sqrt()`, MPFR `sqrt`): NaN for negative input,
exact when the rational square root exists; an irrational square root is a
rounded transcendental in the source, unobserved by any claim, kept
abstract as `nan`. -/
def MFloat.sqrtv : MFloat → MFloat
  | .nan => .nan
  | .inf false => .inf false
  | .inf true => .nan
  | .num x =>
      if x < 0 then .nan
      else
        let n := x.num.toNat
        let d := x.den
        if Nat.sqrt n * Nat.sqrt n = n ∧ Nat.sqrt d * Nat.sqrt d = d then
          .num (mkRat (Nat.sqrt n) (Nat.sqrt d))
        else .nan

/-- Sine (`clone().sin()`, MPFR `sin`): exact only at zero; every other
value is a rounded transcendental in the source, unobserved by any claim,
kept abstract as `nan`. -/
def MFloat.sinv : MFloat → MFloat
  | .num 0 => .num 0
  | _ => .nan

/-- Rank of a value in the MPFR total order used by `rug::Float::as_ord`:
-inf < finite < +inf < NaN. -/
def mfRank : MFloat → ℕ
  | .inf true => 0
  | .num _ => 1
  | .inf false => 2
  | .nan => 3

/-- The total order `rug::Float::as_ord` (MPFR total order) restricted to
the values of the model: -inf < finite (by rational order) < +inf < NaN. -/
def mfLe (a b : MFloat) : Bool :=
  match a, b with
  | .num x, .num y => decide (x ≤ y)
  | a, b => decide (mfRank a ≤ mfRank b)

theorem mfLe_refl (a : MFloat) : mfLe a a = true := by
  rcases a with x | (_|_) | _ <;> simp [mfLe]

theorem mfLe_total (a b : MFloat) : mfLe a b = true ∨ mfLe b a = true := by
  rcases a with x | (_|_) | _ <;> rcases b with y | (_|_) | _ <;>
    simp [mfLe, mfRank]
  exact le_total x y

theorem mfLe_trans {a b c : MFloat} (h1 : mfLe a b = true) (h2 : mfLe b c = true) :
    mfLe a c = true := by
  rcases a with x | (_|_) | _ <;> rcases b with y | (_|_) | _ <;>
      rcases c with z | (_|_) | _ <;>
    simp_all [mfLe, mfRank] <;> linarith

theorem mfLe_antisymm {a b : MFloat} (h1 : mfLe a b = true) (h2 : mfLe b a = true) :
    a = b := by
  rcases a with x | (_|_) | _ <;> rcases b with y | (_|_) | _ <;>
    simp_all [mfLe, mfRank] <;> linarith

/-! ## Number formatter (`src/util.rs`)

`disp_num` consumes the triple returned by rug's
`Float::to_sign_string_exp(10, Some(digits))`: the sign, a digit string of
exactly `digits` significant decimal digits (correctly rounded, round to
nearest with ties to even — MPFR `RNDN`), and a decimal exponent `exp` with
value = `0.<digits> × 10^exp`; the exponent is `None` for zero (digit
string `"0"`), infinities and NaN.  Strings are modelled as `List Char`
(the digit strings are ASCII, so Rust's byte indexing coincides with
character indexing). -/

/-- Floor of a nonnegative rational. -/
def ratFloorPos (q : ℚ) : ℕ := q.num.toNat / q.den

/-- Round a nonnegative rational to the nearest natural, ties to even
(MPFR `RNDN`, the mode used by `to_sign_string_exp`). -/
def roundHalfEvenPos (q : ℚ) : ℕ :=
  let f := ratFloorPos q
  let r := qsub q (f : ℚ)
  if r < mkRat 1 2 then f
  else if mkRat 1 2 < r then f + 1
  else if f % 2 = 0 then f else f + 1

/-- Decimal digit count of a natural number (1 for 0); the fuel argument of
the helper strictly exceeds the digit count, so it never runs out. -/
def natDigits10Aux : ℕ → ℕ → ℕ
  | 0, _ => 1
  | fuel + 1, n => if n < 10 then 1 else natDigits10Aux fuel (n / 10) + 1

def natDigits10 (n : ℕ) : ℕ := natDigits10Aux n n

/-- Smallest `k` with `q * 10^k ≥ 1`, for `0 < q`.  The fuel exceeds the
number of decimal digits of the denominator, which bounds `k`, so the fuel
never runs out for positive `q`. -/
def firstScaleAux (q : ℚ) : ℕ → ℕ → ℕ
  | 0, k => k
  | fuel + 1, k => if 1 ≤ qmul q (qpow 10 k) then k else firstScaleAux q fuel (k + 1)

def firstScale (q : ℚ) : ℕ := firstScaleAux q (natDigits10 q.den + 2) 0

/-- Decimal exponent `e` of a positive rational: `10^(e-1) ≤ q < 10^e`. -/
def decExpPos (q : ℚ) : ℤ :=
  if 1 ≤ q then (natDigits10 (ratFloorPos q) : ℤ) else 1 - (firstScale q : ℤ)

/-- Multiply a rational by `10^k` for an integer `k`. -/
def scaleByPow10 (q : ℚ) (k : ℤ) : ℚ :=
  if 0 ≤ k then qmul q (qpow 10 k.toNat) else qdiv q (qpow 10 (-k).toNat)

/-- Model of `rug::Float::to_sign_string_exp(10, Some(digits))`: sign,
digit string, decimal exponent.  For a nonzero finite value the digit
string has exactly `digits` digits, correctly rounded (ties to even); if
rounding overflows to `10^digits` the exponent is bumped instead.  Zero
yields `"0"` with no exponent, the non-finite values yield their names
with no exponent. -/
def toSignStringExp (x : MFloat) (digits : ℕ) : Bool × List Char × Option ℤ :=
  match x with
  | .nan => (false, "NaN".data, none)
  | .inf s => (s, "inf".data, none)
  | .num q =>
      if q = 0 then (false, "0".data, none)
      else
        let sign := decide (q < 0)
        let a := if q < 0 then -q else q
        let e := decExpPos a
        let n := roundHalfEvenPos (scaleByPow10 a ((digits : ℤ) - e))
        if n = 10 ^ digits then (sign, (Nat.repr (10 ^ (digits - 1))).data, some (e + 1))
        else (sign, (Nat.repr n).data, some e)

/-- Rust `str::trim_end_matches('0')`: drop every trailing `'0'`. -/
def trimEnd0 (s : List Char) : List Char :=
  (s.reverse.dropWhile (fun c => c = '0')).reverse

/-- Embedding of `insert_delimeter` (`src/util.rs`): split at `i`, trim
trailing zeros from the right part, drop the point when nothing remains. -/
def insert_delimeter (str : List Char) (i : ℕ) : List Char :=
  let l := str.take i
  let r := str.drop i
  let r := trimEnd0 r
  match r with
  | [] => l
  | r => l ++ '.' :: r

/-- Embedding of `disp_num` (`src/util.rs`): the four-regime decimal
formatter.  It always returns `some`. -/
def disp_num (num : MFloat) (digits : ℕ) : Option String :=
  match toSignStringExp num digits with
  | (_, str, none) => some (String.mk str)
  | (sign, str, some exp) =>
      let d : ℤ := (digits : ℤ)
      let s :=
        if 0 < exp ∧ exp < d then insert_delimeter str exp.toNat
        else if exp = d then str
        else if -d < exp ∧ exp ≤ 0 then
          '0' :: '.' :: (List.replicate exp.natAbs '0' ++ trimEnd0 str)
        else insert_delimeter str 1 ++ 'e' :: (Int.repr (exp - 1)).data
      some (String.mk ((if sign then ['-'] else []) ++ s))

/-- The spec's §4.6 four-regime description of the formatter, written from
the spec's words, over the same (sign, digit string, exponent) triple; used
to compare `disp_num` against the specified regime selection. -/
def format_spec (sign : Bool) (str : List Char) (exp? : Option ℤ) (digits : ℕ) : String :=
  match exp? with
  | none => String.mk str
  | some exp =>
      let d : ℤ := (digits : ℤ)
      let body :=
        if 0 < exp ∧ exp < d then
          match trimEnd0 (str.drop exp.toNat) with
          | [] => str.take exp.toNat
          | r => str.take exp.toNat ++ '.' :: r
        else if exp = d then str
        else if -d < exp ∧ exp ≤ 0 then
          '0' :: '.' :: (List.replicate exp.natAbs '0' ++ trimEnd0 str)
        else
          (match trimEnd0 (str.drop 1) with
           | [] => str.take 1
           | r => str.take 1 ++ '.' :: r) ++ 'e' :: (Int.repr (exp - 1)).data
      String.mk ((if sign then ['-'] else []) ++ body)

/-! ## Scanner (`src/scanner.rs`)

The scanner walks the source string by byte offset (`start`/`current` are
byte indices into the UTF-8 text, `source.len()` is the byte length), but
reads characters with `chars().next()` and advances `current` by exactly 1.
Rust string slicing `&source[current..]` panics when `current` is not on a
character boundary; `charAtB` models this with `Except Unit`, where
`.error ()` is a panic/abort.  Fuel arguments bound loops that consume at
least one byte per iteration; every call site supplies fuel exceeding the
byte length of the source, so the fuel-exhaustion branch is unreachable. -/

inductive TokenKind where
  | lParen | rParen | comma | dot | minus | plus | slash | star | exp
  | indentifier | equal | number | eof | unkown
deriving DecidableEq

/-- AST literal (`ast.rs`): `Literal::Number(Float)`. -/
inductive Literal where
  | number (n : MFloat)
deriving DecidableEq

/-- A lexical token with its half-open byte span (`start..end`). -/
structure Token where
  kind : TokenKind
  literal : Option Literal
  start : ℕ
  endPos : ℕ
deriving DecidableEq

/-- Byte length of a string given as its character list. -/
def utf8Len (s : List Char) : ℕ := s.foldl (fun n c => n + c.utf8Size) 0

/-- Character starting at byte offset `i` (`source[i..].chars().next()`):
`ok none` at the end of the string, `.error ()` when `i` is past the end or
not on a character boundary (Rust slicing panics there). -/
def charAtB : List Char → ℕ → Except Unit (Option Char)
  | [], i => if i = 0 then .ok none else .error ()
  | c :: cs, i =>
      if i = 0 then .ok (some c)
      else if i < c.utf8Size then .error ()
      else charAtB cs (i - c.utf8Size)

/-- First `n` bytes of a character list (call sites are always
character-aligned: the scanner only slices spans of ASCII digit runs). -/
def takeBytes : List Char → ℕ → List Char
  | _, 0 => []
  | [], _ + 1 => []
  | c :: cs, n + 1 => if c.utf8Size ≤ n + 1 then c :: takeBytes cs (n + 1 - c.utf8Size) else []

/-- Drop the first `n` bytes of a character list (same alignment remark). -/
def dropBytes : List Char → ℕ → List Char
  | cs, 0 => cs
  | [], _ + 1 => []
  | c :: cs, n + 1 => if c.utf8Size ≤ n + 1 then dropBytes cs (n + 1 - c.utf8Size) else cs

/-- Byte-range slice `&source[a..b]`. -/
def subBytes (s : List Char) (a b : ℕ) : List Char := takeBytes (dropBytes s a) (b - a)

/-- Value of a run of ASCII digits. -/
def digitsToNat (cs : List Char) : ℕ :=
  cs.foldl (fun acc c => acc * 10 + (c.toNat - '0'.toNat)) 0

/-- Model of `Float::parse` on the scanned number substring
(`digits` optionally followed by `'.'` and more digits): the exact decimal
value.  The source rounds this value to 256 bits; see the header note on
why that rounding is invisible to every claim. -/
def parseNum (cs : List Char) : ℚ :=
  let intPart := cs.takeWhile (fun c => c ≠ '.')
  let rest := cs.dropWhile (fun c => c ≠ '.')
  match rest with
  | [] => mkRat (digitsToNat intPart) 1
  | _ :: frac =>
      qadd (mkRat (digitsToNat intPart) 1) (mkRat (digitsToNat frac) (10 ^ frac.length))

/-- Scanner state (`Scanner` struct): source text, tokens emitted so far,
byte span `start..current` of the token in progress. -/
structure Scanner where
  source : List Char
  tokens : List Token
  start : ℕ
  current : ℕ
deriving DecidableEq

def Scanner.is_at_end (s : Scanner) : Bool := decide (s.current ≥ utf8Len s.source)

/-- `advance`: read the character at `current` (panicking slice + `unwrap`),
then advance `current` by one byte — the byte/character mismatch at the
heart of the non-ASCII panic. -/
def Scanner.advance (s : Scanner) : Except Unit (Char × Scanner) :=
  match charAtB s.source s.current with
  | .error () => .error ()
  | .ok none => .error ()
  | .ok (some c) => .ok (c, { s with current := s.current + 1 })

def Scanner.add_token (s : Scanner) (kind : TokenKind) (lit : Option Literal) : Scanner :=
  { s with tokens := s.tokens ++ [⟨kind, lit, s.start, s.current⟩] }

/-- `advance_while`: consume characters while the predicate holds.  Every
predicate used is ASCII-only, so each consumed character is one byte. -/
def advanceWhile (p : Char → Bool) : ℕ → Scanner → Except Unit Scanner
  | 0, _ => .error ()
  | fuel + 1, s =>
      match charAtB s.source s.current with
      | .error () => .error ()
      | .ok none => .ok s
      | .ok (some c) =>
          if p c then advanceWhile p fuel { s with current := s.current + 1 } else .ok s

/-- `number`: a digit run, optionally a `'.'` followed by at least one
digit, parsed eagerly into the numeric literal. -/
def Scanner.number (s : Scanner) : Except Unit Scanner :=
  match advanceWhile Char.isDigit (utf8Len s.source + 1) s with
  | .error () => .error ()
  | .ok s1 =>
      match charAtB s1.source s1.current with
      | .error () => .error ()
      | .ok pk =>
          match
            (if pk = some '.' then
              match charAtB s1.source (s1.current + 1) with
              | .error () => .error ()
              | .ok pk2 =>
                  if (match pk2 with | some c => c.isDigit | none => false) then
                    match advanceWhile Char.isDigit (utf8Len s1.source + 1)
                        { s1 with current := s1.current + 1 } with
                    | .error () => .error ()
                    | .ok s2 => .ok s2
                  else .ok s1
            else .ok s1 : Except Unit Scanner)
          with
          | .error () => .error ()
          | .ok s3 =>
              .ok (s3.add_token .number
                (some (.number (.num (parseNum (subBytes s3.source s3.start s3.current))))))

/-- `literal`: an identifier token (alphanumeric run); the name is not
stored, the parser recovers it from the span. -/
def Scanner.literal_tok (s : Scanner) : Except Unit Scanner :=
  match advanceWhile Char.isAlphanum (utf8Len s.source + 1) s with
  | .error () => .error ()
  | .ok s1 => .ok (s1.add_token .indentifier none)

/-- `scan_token`: dispatch on the next character, in the source's match
order; characters matching no rule produce an `Unkown` token. -/
def Scanner.scan_token (s : Scanner) : Except Unit Scanner :=
  match s.advance with
  | .error () => .error ()
  | .ok (c, s) =>
      if c = '(' then .ok (s.add_token .lParen none)
      else if c = ')' then .ok (s.add_token .rParen none)
      else if c = ',' then .ok (s.add_token .comma none)
      else if c = '.' then .ok (s.add_token .dot none)
      else if c = '-' then .ok (s.add_token .minus none)
      else if c = '+' then .ok (s.add_token .plus none)
      else if c = '/' then .ok (s.add_token .slash none)
      else if c = '*' then .ok (s.add_token .star none)
      else if c = '=' then .ok (s.add_token .equal none)
      else if c = '^' then .ok (s.add_token .exp none)
      else if c.isDigit then s.number
      else if c.isAlpha then s.literal_tok
      else if c = ' ' then .ok s
      else .ok (s.add_token .unkown none)

/-- The `scan_tokens` main loop: set `start := current`, scan one token,
repeat until the end; each iteration consumes at least one byte. -/
def scanLoop : ℕ → Scanner → Except Unit Scanner
  | 0, _ => .error ()
  | fuel + 1, s =>
      if s.is_at_end then .ok s
      else
        match Scanner.scan_token { s with start := s.current } with
        | .error () => .error ()
        | .ok s1 => scanLoop fuel s1

/-- Embedding of `Scanner::scan_tokens`: scan the whole text and append the
final `Eof` token.  `.error ()` is a panic (never an `Err`: the source's
`Result` is always `Ok`). -/
def scan_tokens (source : String) : Except Unit (List Token) :=
  let s0 : Scanner := ⟨source.data, [], 0, 0⟩
  match scanLoop (utf8Len source.data + 1) s0 with
  | .error () => .error ()
  | .ok s => .ok (s.tokens ++ [⟨.eof, none, s.current, s.current⟩])

deriving instance DecidableEq for Except

/-! ## AST model (`src/interpreter/ast.rs`) -/

/-- Expression nodes.  Operator tokens are stored whole, as in the source
(`BinaryExpr { lhs, operator: Token, rhs }`). -/
inductive Expr where
  | literal (lit : Literal)
  | binary (lhs : Expr) (operator : Token) (rhs : Expr)
  | unary (operator : Token) (rhs : Expr)
  | grouping (inner : Expr)
  | var (name : String)
  | fnCall (name : String) (arguments : List Expr)

/-- Statement nodes: `VarAssign`, `FnAssign`, bare expression. -/
inductive Stmt where
  | varAssign (name : String) (value : Expr)
  | fnAssign (name : String) (arguments : List String) (expr : Expr)
  | expr (e : Expr)

/-! ## Environment (`src/interpreter/env.rs`)

The `BTreeMap<Cow<str>, EnvMember>` is modelled as an association list kept
sorted by key (the map's iteration order); lookups scan for the first
matching key.  A Rust `fn(&[Float]) -> Float` pointer can only be one of the
six functions registered by `math::insert_funcs`, so builtins are
represented by a name tag plus the `applyBuiltin` dispatch below. -/

inductive BuiltinName where
  | sum | sqrt | avg | min | max | sin
deriving DecidableEq

/-- `Func`: user-defined (shared body expression + parameter names) or
builtin. -/
inductive Func where
  | userFn (expr : Expr) (arguments : List String)
  | builtinFn (f : BuiltinName)

/-- `EnvMember`: a variable's value or a function. -/
inductive EnvMember where
  | var (v : MFloat)
  | fn (f : Func)

/-- The environment: members of the `BTreeMap`, sorted by key. -/
structure Env where
  members : List (String × EnvMember)

/-- `BTreeMap::get`. -/
def envGet : List (String × EnvMember) → String → Option EnvMember
  | [], _ => none
  | (k, m) :: rest, q => if q = k then some m else envGet rest q

/-- `BTreeMap::entry(k)` followed by inserting `Fn v` in both the occupied
and the vacant arm (`Env::set_func` replaces whatever member was there).
The `BTreeMap` keeps its keys sorted, which only affects iteration order
(`search`), observed by no claim; the model keeps keys unique and replaces
in place, appending a fresh key at the end. -/
def setFuncGo (k : String) (v : Func) : List (String × EnvMember) → List (String × EnvMember)
  | [] => [(k, .fn v)]
  | (k', m) :: rest =>
      if k = k' then (k, .fn v) :: rest
      else (k', m) :: setFuncGo k v rest

def Env.set_func (env : Env) (k : String) (v : Func) : Env :=
  ⟨setFuncGo k v env.members⟩

/-- `Env::set_var`: `entry(k).and_modify(...).or_insert(Var v)`.  The
`and_modify` closure only overwrites a `Var` member (`_ => ()` on a `Fn`),
and `or_insert` does nothing on an occupied entry — so a function member is
left unchanged.  The source returns `Result<(), String>` but both arms are
`Ok(())`, hence no error component here. -/
def setVarGo (k : String) (v : MFloat) : List (String × EnvMember) → List (String × EnvMember)
  | [] => [(k, .var v)]
  | (k', m) :: rest =>
      if k = k' then
        (match m with
         | .var _ => (k, .var v)
         | .fn f => (k, .fn f)) :: rest
      else (k', m) :: setVarGo k v rest

def Env.set_var (env : Env) (k : String) (v : MFloat) : Env :=
  ⟨setVarGo k v env.members⟩

/-- `Env::get_var`: a `Fn` member (or no member) yields `None`. -/
def Env.get_var (env : Env) (q : String) : Option MFloat :=
  match envGet env.members q with
  | some (.var v) => some v
  | _ => none

/-- `Env::get_func`: a `Var` member (or no member) yields `None`. -/
def Env.get_func (env : Env) (q : String) : Option Func :=
  match envGet env.members q with
  | some (.fn f) => some f
  | _ => none

/-! ## Builtin math library (`src/interpreter/math.rs`)

Builtins have Rust type `fn(&[Float]) -> Float`; several index `args[0]` or
`unwrap()` an `Option` and therefore panic on an empty argument list.  A
panic is modelled as `none`. -/

/-- `sum`: left fold of `+` starting from `Float::new(PREC_BITS)` (zero). -/
def mathSum (args : List MFloat) : MFloat :=
  args.foldl MFloat.add (.num 0)

/-- Fold of Rust `Iterator::max_by_key` over `as_ord`: when several
elements compare equal the later one is kept. -/
def maxByOrd : List MFloat → Option MFloat
  | [] => none
  | x :: xs => some (xs.foldl (fun acc y => if mfLe acc y then y else acc) x)

/-- Fold of Rust `Iterator::min_by_key` over `as_ord`: when several
elements compare equal the earlier one is kept. -/
def minByOrd : List MFloat → Option MFloat
  | [] => none
  | x :: xs => some (xs.foldl (fun acc y => if mfLe acc y then acc else y) x)

/-- Dispatch a builtin on its evaluated arguments; `none` is a panic
(`args[0]` out of bounds for `sqrt`/`sin`, `.unwrap()` on `None` for
`min`/`max`).  `avg` divides by `args.len() as u32` and silently yields
NaN (0/0) on an empty list. -/
def applyBuiltin : BuiltinName → List MFloat → Option MFloat
  | .sum, args => some (mathSum args)
  | .sqrt, [] => none
  | .sqrt, a :: _ => some a.sqrtv
  | .avg, args => some ((mathSum args).div (.num (mkRat args.length 1)))
  | .max, args => maxByOrd args
  | .min, args => minByOrd args
  | .sin, [] => none
  | .sin, a :: _ => some a.sinv

/-- `math::insert_funcs` applied to `Env::new()` (the environment built by
`Interpreter::new()`): the six builtins, in the map's key order. -/
def initEnv : Env :=
  ⟨[("avg", .fn (.builtinFn .avg)),
    ("max", .fn (.builtinFn .max)),
    ("min", .fn (.builtinFn .min)),
    ("sin", .fn (.builtinFn .sin)),
    ("sqrt", .fn (.builtinFn .sqrt)),
    ("sum", .fn (.builtinFn .sum))]⟩

/-! ## Parser (`src/interpreter/parser.rs`)

Recursive-descent parser over the token list.  `current` is a token index;
`peek()`/`previous()` index `self.tokens` directly and would panic out of
bounds, but the parser is only ever run on scanner output, which is
nonempty and `Eof`-terminated, so they stay in bounds; the model supplies
an `Eof` default for the (unreachable) out-of-range case.  The recursion
through `expression` and `unary` is bounded in the source only by the host
stack; it carries a fuel argument here, with `.abort` for exhaustion, and
every theorem instantiates fuel large enough that `.abort` is unreachable
for its input.  The iteration count of each token-consuming loop is bounded
by the token count, so those loops carry fuel `tokens.length + 1`. -/

structure PState where
  current : ℕ
  tokens : List Token
  source : List Char
deriving DecidableEq

inductive PRes (α : Type) where
  | ok (val : α) (p : PState)
  | err (msg : String)
  | abort

def peekP (p : PState) : Token := (p.tokens.get? p.current).getD ⟨.eof, none, 0, 0⟩

def prevP (p : PState) : Token := (p.tokens.get? (p.current - 1)).getD ⟨.eof, none, 0, 0⟩

def isAtEndP (p : PState) : Bool := decide ((peekP p).kind = .eof)

/-- `check`: kind comparison by `discriminant` — for the field-free
`TokenKind` this is plain constructor equality. -/
def checkP (p : PState) (kind : TokenKind) : Bool :=
  if isAtEndP p then false else decide (kind = (peekP p).kind)

def advanceP (p : PState) : PState :=
  if isAtEndP p then p else { p with current := p.current + 1 }

/-- `match_tokens`: try each kind in order, consuming the token on the
first match. -/
def matchTokens (p : PState) : List TokenKind → Bool × PState
  | [] => (false, p)
  | k :: rest => if checkP p k then (true, advanceP p) else matchTokens p rest

def consumeP (p : PState) (kind : TokenKind) (error : String) : PRes Token :=
  if checkP p kind then
    let p1 := advanceP p
    .ok (prevP p1) p1
  else .err error

/-- The shared shape of the three binary-operator loops in `term`, `factor`
and `exp`: `while match_tokens(ops) { rhs = next(); lhs = Binary(lhs, op, rhs) }`,
folding to the left. -/
def pBinLoop (next : PState → PRes Expr) (ops : List TokenKind) :
    ℕ → Expr → PState → PRes Expr
  | 0, _, _ => .abort
  | fuel + 1, lhs, p =>
      let (m, p1) := matchTokens p ops
      if m then
        let op := prevP p1
        match next p1 with
        | .ok rhs p2 => pBinLoop next ops fuel (.binary lhs op rhs) p2
        | .err e => .err e
        | .abort => .abort
      else .ok lhs p1

/-- The argument loop of a call form:
`loop { arguments.push(expression()?); if !match_tokens(Comma) { break } }`. -/
def pArgsLoop (pexp : PState → PRes Expr) : ℕ → List Expr → PState → PRes (List Expr)
  | 0, _, _ => .abort
  | fuel + 1, acc, p =>
      match pexp p with
      | .ok e p1 =>
          let (m, p2) := matchTokens p1 [.comma]
          if m then pArgsLoop pexp fuel (acc ++ [e]) p2 else .ok (acc ++ [e]) p2
      | .err e => .err e
      | .abort => .abort

/-- `primary`: number literal, parenthesised expression, or identifier
(with optional call form, whose name is sliced from the source span). -/
def pPrimary (pexp : PState → PRes Expr) (p : PState) : PRes Expr :=
  let (m, p1) := matchTokens p [.number]
  if m then
    match (prevP p1).literal with
    | some lit => .ok (.literal lit) p1
    | none => .abort
  else
    let (m2, p2) := matchTokens p1 [.lParen]
    if m2 then
      match pexp p2 with
      | .ok e p3 =>
          match consumeP p3 .rParen "Expect ')' after expression." with
          | .ok _ p4 => .ok (.grouping e) p4
          | .err msg => .err msg
          | .abort => .abort
      | .err e => .err e
      | .abort => .abort
    else
      let (m3, p3) := matchTokens p2 [.indentifier]
      if m3 then
        let name := String.mk (subBytes p3.source (prevP p3).start (prevP p3).endPos)
        let (m4, p4) := matchTokens p3 [.lParen]
        if m4 then
          match pArgsLoop pexp (p4.tokens.length + 1) [] p4 with
          | .ok args p5 =>
              match consumeP p5 .rParen "Expect ')' after function call." with
              | .ok _ p6 => .ok (.fnCall name args) p6
              | .err msg => .err msg
              | .abort => .abort
          | .err e => .err e
          | .abort => .abort
        else .ok (.var name) p4
      else .err "Expected expression"

/-- `exp`: a `primary`, then a left-folding `^` loop whose right operand is
parsed by `unary` — the recursion into `unary` re-enters `exp`. -/
def pExp (pexp : PState → PRes Expr) (puna : PState → PRes Expr) (p : PState) : PRes Expr :=
  match pPrimary pexp p with
  | .ok e p1 => pBinLoop puna [.exp] (p1.tokens.length + 1) e p1
  | .err e => .err e
  | .abort => .abort

/-- `unary`: optional sign, else fall through to `exp`. -/
def pUnary (pexp : PState → PRes Expr) : ℕ → PState → PRes Expr
  | 0, _ => .abort
  | fuel + 1, p =>
      let (m, p1) := matchTokens p [.minus, .plus]
      if m then
        let op := prevP p1
        match pUnary pexp fuel p1 with
        | .ok rhs p2 => .ok (.unary op rhs) p2
        | .err e => .err e
        | .abort => .abort
      else pExp pexp (pUnary pexp fuel) p1

/-- `factor`: a `unary`, then a left-folding `*`/`/` loop. -/
def pFactor (puna : PState → PRes Expr) (p : PState) : PRes Expr :=
  match puna p with
  | .ok e p1 => pBinLoop puna [.slash, .star] (p1.tokens.length + 1) e p1
  | .err e => .err e
  | .abort => .abort

/-- `term`: a `factor`, then a left-folding `+`/`-` loop. -/
def pTerm (pfac : PState → PRes Expr) (p : PState) : PRes Expr :=
  match pfac p with
  | .ok e p1 => pBinLoop pfac [.plus, .minus] (p1.tokens.length + 1) e p1
  | .err e => .err e
  | .abort => .abort

/-- `expression`: delegates to `term`; the fuel ties the recursive knot for
`primary → expression` and `exp → unary`. -/
def pExpression : ℕ → PState → PRes Expr
  | 0, _ => .abort
  | fuel + 1, p => pTerm (pFactor (pUnary (pExpression fuel) fuel)) p

/-- Map the arguments of a call form on the left of `=` to parameter names
(each must be a bare identifier). -/
def argsToNames : List Expr → Except String (List String)
  | [] => .ok []
  | .var name :: rest =>
      match argsToNames rest with
      | .ok ns => .ok (name :: ns)
      | .error e => .error e
  | _ :: _ => .error "Invalid function args"

/-- `stmt`: an expression, optionally `= expression` reinterpreting the
left side as an assignment target. -/
def pStmt (fuel : ℕ) (p : PState) : PRes Stmt :=
  match pExpression fuel p with
  | .ok e p1 =>
      let (m, p2) := matchTokens p1 [.equal]
      if m then
        match pExpression fuel p2 with
        | .ok value p3 =>
            match e with
            | .var name => .ok (.varAssign name value) p3
            | .fnCall name args =>
                match argsToNames args with
                | .ok ns => .ok (.fnAssign name ns value) p3
                | .error msg => .err msg
            | _ => .err "Expected function or variable assignment"
        | .err e2 => .err e2
        | .abort => .abort
      else .ok (.expr e) p1
  | .err e => .err e
  | .abort => .abort

/-- Embedding of `Parser::parse`: one statement consuming the whole input. -/
def parse (fuel : ℕ) (p : PState) : PRes Stmt :=
  match pStmt fuel p with
  | .ok res p1 => if isAtEndP p1 then .ok res p1 else .err "Expected EOF"
  | .err e => .err e
  | .abort => .abort

/-- Parser state for a token list scanned from `source`
(`Parser::new(tokens, source)`). -/
def mkPState (tokens : List Token) (source : String) : PState := ⟨0, tokens, source.data⟩

/-! ## Evaluator (`src/interpreter.rs`)

`visit_expr` mutates only `self.scope`; the environment and the last-result
register are read-only during expression evaluation (the borrow structure of
the source), so the evaluator threads the optional scope and returns it in
the result.  `EvalRes.abort` is a Rust panic or stack exhaustion; the fuel
argument bounds recursion depth, standing for the host call stack, and every
theorem instantiates it beyond the depth its input needs.  Note that a panic
unwinds past the `self.scope = None` cleanup — `.abort` carries no scope. -/

/-- The call-local scope: `HashMap<String, Float>` as an association list
with first-match lookup and replace-on-insert. -/
abbrev Scope := List (String × MFloat)

def scopeInsert : Scope → String → MFloat → Scope
  | [], k, v => [(k, v)]
  | (k', v') :: rest, k, v =>
      if k = k' then (k, v) :: rest else (k', v') :: scopeInsert rest k v

/-- `HashMap::get`. -/
def scopeGet (sc : Scope) (name : String) : Option MFloat := List.lookup name sc

/-- `f_args.into_iter().zip(args).collect::<HashMap<_,_>>()`: later
duplicates overwrite earlier ones. -/
def mkScope (params : List String) (vals : List MFloat) : Scope :=
  (params.zip vals).foldl (fun m kv => scopeInsert m kv.1 kv.2) []

/-- Result of evaluating one expression: a value or a reported error, each
with the scope as left behind, or a panic/stack-overflow abort. -/
inductive EvalRes (α : Type) where
  | ok (val : α) (scope : Option Scope)
  | err (msg : String) (scope : Option Scope)
  | abort

/-- Embedding of `visit_var`: the reserved `ans` register first, then the
call-local scope, then the environment's variable table, else the
undeclared-variable error. -/
def visit_var (env : Env) (last : MFloat) (scope : Option Scope) (name : String) :
    Except String MFloat :=
  match Option.or (Option.or (if name = "ans" then some last else none)
      (scope.bind (fun s => scopeGet s name))) (env.get_var name) with
  | some v => .ok v
  | none => .error ("Undeclared variable '" ++ name ++ "'")

/-- The operator dispatch of `visit_binary_expr`; `none` is the
`panic!("Unexpected Token ...")` arm. -/
def applyBinOp (kind : TokenKind) (v1 v2 : MFloat) : Option MFloat :=
  match kind with
  | .plus => some (v1.add v2)
  | .minus => some (v1.sub v2)
  | .slash => some (v1.div v2)
  | .star => some (v1.mul v2)
  | .exp => some (v1.pow v2)
  | _ => none

/-- The operator dispatch of `visit_unary_expr`; `none` is the panic arm. -/
def applyUnOp (kind : TokenKind) (v : MFloat) : Option MFloat :=
  match kind with
  | .minus => some v.neg
  | .plus => some v
  | _ => none

/-- Argument evaluation of `visit_func_call`
(`arguments.iter().map(visit_expr).collect::<Result<_,_>>()`): left to
right, stopping at the first error. -/
def evalArgsWith (evalE : Option Scope → Expr → EvalRes MFloat) :
    Option Scope → List Expr → EvalRes (List MFloat)
  | sc, [] => .ok [] sc
  | sc, e :: rest =>
      match evalE sc e with
      | .ok v sc1 =>
          match evalArgsWith evalE sc1 rest with
          | .ok vs sc2 => .ok (v :: vs) sc2
          | .err m sc2 => .err m sc2
          | .abort => .abort
      | .err m sc1 => .err m sc1
      | .abort => .abort

/-- One level of `visit_expr`, parameterised by the evaluator used for
subexpressions (`visit_expr` at one less fuel).  The `fnCall` case is
`visit_func_call`: arguments are evaluated against the current scope, the
callee is then resolved in the environment; a user call checks arity,
installs the freshly built scope as the sole active scope, evaluates the
body, and unconditionally resets the scope to `None` on the value and the
error path alike (a panic unwinds past the reset). -/
def visit_expr_step (env : Env) (last : MFloat)
    (evalE : Option Scope → Expr → EvalRes MFloat)
    (sc : Option Scope) : Expr → EvalRes MFloat
  | .literal (.number n) => .ok n sc
  | .grouping inner => evalE sc inner
  | .var name =>
      match visit_var env last sc name with
      | .ok v => .ok v sc
      | .error m => .err m sc
  | .binary lhs op rhs =>
      match evalE sc lhs with
      | .ok v1 sc1 =>
          match evalE sc1 rhs with
          | .ok v2 sc2 =>
              match applyBinOp op.kind v1 v2 with
              | some v => .ok v sc2
              | none => .abort
          | .err m sc2 => .err m sc2
          | .abort => .abort
      | .err m sc1 => .err m sc1
      | .abort => .abort
  | .unary op rhs =>
      match evalE sc rhs with
      | .ok v sc1 =>
          match applyUnOp op.kind v with
          | some v2 => .ok v2 sc1
          | none => .abort
      | .err m sc1 => .err m sc1
      | .abort => .abort
  | .fnCall name args =>
      match evalArgsWith evalE sc args with
      | .ok vals sc1 =>
          match env.get_func name with
          | none => .err ("No function named '" ++ name ++ "'") sc1
          | some (.builtinFn b) =>
              match applyBuiltin b vals with
              | some v => .ok v sc1
              | none => .abort
          | some (.userFn body params) =>
              if params.length ≠ args.length then
                .err ("Function '" ++ name ++ "' takes " ++ Nat.repr params.length ++ " args") sc1
              else
                match evalE (some (mkScope params vals)) body with
                | .ok v _ => .ok v none
                | .err m _ => .err m none
                | .abort => .abort
      | .err m sc1 => .err m sc1
      | .abort => .abort

/-- Embedding of `visit_expr`: ties the recursive knot over the fuel. -/
def visit_expr (env : Env) (last : MFloat) : ℕ → Option Scope → Expr → EvalRes MFloat
  | 0, _, _ => .abort
  | fuel + 1, sc, e => visit_expr_step env last (visit_expr env last fuel) sc e

/-- Argument evaluation at a given fuel (the instance of `evalArgsWith`
appearing inside `visit_expr` at `fuel + 1`). -/
def visit_args (env : Env) (last : MFloat) (fuel : ℕ) :
    Option Scope → List Expr → EvalRes (List MFloat) :=
  evalArgsWith (visit_expr env last fuel)

/-- The interpreter state (`Interpreter` struct). -/
structure Interpreter where
  env : Env
  scope : Option Scope
  last_ans : MFloat
  save_assignments : Bool

/-- `Interpreter::new()`: builtin functions registered, no scope, zero
last result, assignments saved. -/
def Interpreter.new : Interpreter := ⟨initEnv, none, .num 0, true⟩

/-- Result of evaluating one statement. -/
inductive StmtRes where
  | ok (val : MFloat) (st : Interpreter)
  | err (msg : String) (st : Interpreter)
  | abort

/-- Embedding of `visit_stmt_owned`: a variable assignment evaluates its
value and writes it to the environment only when `save_assignments` is set;
a function assignment stores the function (unevaluated) only when
`save_assignments` is set and returns the sentinel `1`; a bare expression
evaluates.  (`Env::set_var` / `Env::set_func` return `Ok(())` always, so
the `?` in the source never fires.) -/
def visit_stmt_owned (fuel : ℕ) (st : Interpreter) : Stmt → StmtRes
  | .varAssign name value =>
      match visit_expr st.env st.last_ans fuel st.scope value with
      | .ok v sc =>
          if st.save_assignments then
            .ok v { st with scope := sc, env := st.env.set_var name v }
          else .ok v { st with scope := sc }
      | .err m sc => .err m { st with scope := sc }
      | .abort => .abort
  | .fnAssign name params body =>
      if st.save_assignments then
        .ok (.num 1) { st with env := st.env.set_func name (.userFn body params) }
      else .ok (.num 1) st
  | .expr e =>
      match visit_expr st.env st.last_ans fuel st.scope e with
      | .ok v sc => .ok v { st with scope := sc }
      | .err m sc => .err m { st with scope := sc }
      | .abort => .abort

/-- Value-or-error view of a statement result (`none` is an abort). -/
def StmtRes.resultv : StmtRes → Option (Except String MFloat)
  | .ok v _ => some (.ok v)
  | .err m _ => some (.error m)
  | .abort => none

/-- The host pipeline for one submitted line (`main.rs`):
`Scanner::new(input).scan_tokens().unwrap()`, `Parser::new(tokens, input)
.parse().and_then(|e| interpreter.visit_stmt_owned(e))`. -/
def runLine (fuel : ℕ) (st : Interpreter) (input : String) : StmtRes :=
  match scan_tokens input with
  | .error () => .abort
  | .ok tokens =>
      match parse fuel (mkPState tokens input) with
      | .ok stmt _ => visit_stmt_owned fuel st stmt
      | .err m => .err m st
      | .abort => .abort


/-! ## Claims -/

theorem envGet_setFuncGo (k : String) (v : Func) (l : List (String × EnvMember)) :
    envGet (setFuncGo k v l) k = some (.fn v) := by
  induction l with
  | nil => simp [setFuncGo, envGet]
  | cons hd tl ih =>
      obtain ⟨k', m⟩ := hd
      by_cases h : k = k' <;> simp [setFuncGo, envGet, h, ih]

theorem setVarGo_of_fn {k : String} {v : MFloat} {g : Func}
    {l : List (String × EnvMember)} (h : envGet l k = some (.fn g)) :
    setVarGo k v l = l := by
  induction l with
  | nil => simp [envGet] at h
  | cons hd tl ih =>
      obtain ⟨k', m⟩ := hd
      by_cases hk : k = k'
      · simp [envGet, hk] at h
        simp [setVarGo, hk, h]
      · simp [envGet, hk] at h
        simp [setVarGo, hk, ih h]

theorem envGet_setVarGo_of_no_fn {k : String} {v : MFloat}
    {l : List (String × EnvMember)}
    (h : (match envGet l k with | some (.fn f) => some f | _ => none) = none) :
    envGet (setVarGo k v l) k = some (.var v) := by
  induction l with
  | nil => simp [setVarGo, envGet]
  | cons hd tl ih =>
      obtain ⟨k', m⟩ := hd
      by_cases hk : k = k'
      · simp [envGet, hk] at h
        cases m with
        | var w => simp [setVarGo, hk, envGet]
        | fn f => simp at h
      · simp [envGet, hk] at h
        simp [setVarGo, hk, envGet, ih h]

/-- Claim C1 (amended).  `set_function` over any existing member (variable
or function) replaces it, and afterwards the key maps to exactly the new
function.  But `set_variable` over an existing *function* entry leaves the
environment completely unchanged (the `and_modify` closure ignores `Fn`
members and `or_insert` does not fire on an occupied entry): the value is
silently dropped, the key still maps to the old function.  Only over a
variable entry or an absent key does `set_variable` leave the key mapping
to the new variable. -/
theorem c1_amended (env : Env) (k : String) (f : Func) (v : MFloat) (g : Func) :
    ((env.set_func k f).get_func k = some f) ∧
    ((env.set_func k f).get_var k = none) ∧
    (env.get_func k = some g → env.set_var k v = env) ∧
    (env.get_func k = none → (env.set_var k v).get_var k = some v) := by
  refine ⟨?_, ?_, ?_, ?_⟩
  · simp [Env.get_func, Env.set_func, envGet_setFuncGo]
  · simp [Env.get_var, Env.set_func, envGet_setFuncGo]
  · intro h
    have h' : envGet env.members k = some (.fn g) := by
      unfold Env.get_func at h
      rcases hg : envGet env.members k with _ | m
      · simp [hg] at h
      · cases m with
        | var w => simp [hg] at h
        | fn f' => simp [hg] at h; simp [h]
    cases env
    simp [Env.set_var, setVarGo_of_fn h']
  · intro h
    unfold Env.get_func at h
    simp [Env.get_var, Env.set_var, envGet_setVarGo_of_no_fn h]

/-- Claim C1 (counterexample).  Starting from an environment whose only
member is the function entry `"f"`, `set_variable("f", 5)` does not replace
the entry: the key still maps to the function and a variable lookup fails —
against the claim that the entry is replaced by the variable. -/
theorem c1_counterexample :
    (((Env.mk [("f", .fn (.builtinFn .sin))]).set_var "f" (.num 5)).get_var "f" = none) ∧
    (((Env.mk [("f", .fn (.builtinFn .sin))]).set_var "f" (.num 5)).get_func "f"
        = some (.builtinFn .sin)) :=
  ⟨rfl, rfl⟩

/-- Claim C1 (witness): the amended theorem applied at concrete inputs,
discharging both hypotheses. -/
theorem c1_witness :
    (((Env.mk [("g", .var (.num 1))]).set_func "g" (.builtinFn .sin)).get_func "g"
        = some (.builtinFn .sin)) ∧
    (((Env.mk [("f", .fn (.builtinFn .sin))]).set_var "f" (.num 5))
        = Env.mk [("f", .fn (.builtinFn .sin))]) ∧
    (((Env.mk []).set_var "x" (.num 5)).get_var "x" = some (.num 5)) :=
  ⟨(c1_amended (Env.mk [("g", .var (.num 1))]) "g" (.builtinFn .sin) (.num 5)
      (.builtinFn .sin)).1,
   (c1_amended (Env.mk [("f", .fn (.builtinFn .sin))]) "f" (.builtinFn .sin) (.num 5)
      (.builtinFn .sin)).2.2.1 rfl,
   (c1_amended (Env.mk []) "x" (.builtinFn .sin) (.num 5) (.builtinFn .sin)).2.2.2 rfl⟩


/-- Claim C2 (counterexample).  Scanning, parsing and evaluating the input
`"2^3^2"` through the full pipeline yields 512 — not the 64 the claim
requires of a left-associative `^`. -/
theorem c2_counterexample :
    ((runLine 64 Interpreter.new "2^3^2").resultv = some (.ok (.num 512))) ∧
    ¬((runLine 64 Interpreter.new "2^3^2").resultv = some (.ok (.num 64))) :=
  ⟨by decide, by decide⟩

/-- Claim C3.  The scanner's own contract (a `Result` whose error type is
uninhabited, and the catch-all `Unkown` arm for characters matching no
rule) says scanning never fails — and on ASCII input it does not: `'#'`
becomes an `Unkown` token and spaces are skipped, with a final `Eof`.  But
`advance` increments the byte index `current` by 1 after reading a whole
character, so on the two-byte character `'é'` the next slice
`&source[1..]` falls inside the character and Rust panics
("byte index 1 is not a char boundary"): scanning aborts instead of
producing an `Unkown` token.  -/
theorem c3_scan_never_fails_violated :
    (scan_tokens "é" = .error ()) ∧
    (scan_tokens "#" = .ok [⟨.unkown, none, 0, 1⟩, ⟨.eof, none, 1, 1⟩]) ∧
    (scan_tokens " " = .ok [⟨.eof, none, 1, 1⟩]) := by
  refine ⟨by decide, by decide, by decide⟩

/-- Claim C2 (amended).  The parser treats `^` as right-associative: the
`exp` production parses a `primary` and then, after consuming `^`, parses
its right operand with `unary`, which re-enters `exp` and consumes the rest
of the power chain first — so for every token sequence of the form
`a ^ b ^ c` (any number payloads) the parse result is the tree
`a ^ (b ^ c)`, the loop in `exp` running only once.  Consequently
`"2^3^2"` evaluates to `2^9 = 512`, not 64 (see the counterexample). -/
theorem c2_amended : ∀ a b c : ℚ, ∃ pfin,
    parse 8 (mkPState
      [⟨.number, some (.number (.num a)), 0, 1⟩, ⟨.exp, none, 1, 2⟩,
       ⟨.number, some (.number (.num b)), 2, 3⟩, ⟨.exp, none, 3, 4⟩,
       ⟨.number, some (.number (.num c)), 4, 5⟩, ⟨.eof, none, 5, 5⟩] "a^b^c")
    = .ok (.expr (.binary (.literal (.number (.num a))) ⟨.exp, none, 1, 2⟩
        (.binary (.literal (.number (.num b))) ⟨.exp, none, 3, 4⟩
          (.literal (.number (.num c)))))) pfin := by
  intro a b c
  refine ⟨⟨5, [⟨.number, some (.number (.num a)), 0, 1⟩, ⟨.exp, none, 1, 2⟩,
       ⟨.number, some (.number (.num b)), 2, 3⟩, ⟨.exp, none, 3, 4⟩,
       ⟨.number, some (.number (.num c)), 4, 5⟩, ⟨.eof, none, 5, 5⟩], "a^b^c".data⟩, ?_⟩
  simp [parse, pStmt, pExpression, pTerm, pFactor, pUnary, pExp, pPrimary,
    pBinLoop, matchTokens, checkP, isAtEndP, peekP, prevP, advanceP,
    consumeP, mkPState]

/-- Claim C4.  For a user-defined call whose callee resolves to a user
function with matching arity and whose arguments evaluate to values (under
the current scope, whatever it is), the body is evaluated under exactly the
freshly built parameter scope installed as the sole active scope, and the
resulting scope is `None` — the scope is cleared on the value path and on
the error path alike.  The second conjunct exhibits the documented
consequence end to end: with `g(y)=1` and `f(x)=g(2)+x` defined, the call
`f(5)` fails with "Undeclared variable 'x'" because the inner call `g(2)`
cleared the outer call's bindings. -/
theorem c4_scope_replace_then_clear :
    (∀ (env : Env) (last : MFloat) (fuel : ℕ) (sc : Option Scope) (name : String)
        (argEs : List Expr) (body : Expr) (params : List String)
        (vals : List MFloat) (sc1 : Option Scope),
      env.get_func name = some (.userFn body params) →
      params.length = argEs.length →
      visit_args env last fuel sc argEs = .ok vals sc1 →
      ((∀ v sc2, visit_expr env last fuel (some (mkScope params vals)) body = .ok v sc2 →
          visit_expr env last (fuel + 1) sc (.fnCall name argEs) = .ok v none) ∧
       (∀ m sc2, visit_expr env last fuel (some (mkScope params vals)) body = .err m sc2 →
          visit_expr env last (fuel + 1) sc (.fnCall name argEs) = .err m none))) ∧
    ((match runLine 64 Interpreter.new "g(y)=1" with
      | .ok _ st =>
          (match runLine 64 st "f(x)=g(2)+x" with
           | .ok _ st2 => (runLine 64 st2 "f(5)").resultv
           | _ => none)
      | _ => none) = some (.error "Undeclared variable 'x'")) := by
  constructor
  · intro env last fuel sc name argEs body params vals sc1 h1 h2 h3
    constructor
    · intro v sc2 h4
      simp only [visit_expr, visit_expr_step]
      rw [show evalArgsWith (visit_expr env last fuel) sc argEs = EvalRes.ok vals sc1 from h3]
      rw [h1]
      simp [h2, h4]
    · intro m sc2 h4
      simp only [visit_expr, visit_expr_step]
      rw [show evalArgsWith (visit_expr env last fuel) sc argEs = EvalRes.ok vals sc1 from h3]
      rw [h1]
      simp [h2, h4]
  · decide

/-- Claim C4 (witness): the scope-discipline theorem applied to the call
`f(3)` of `f(x) = x`, all hypotheses discharged at the concrete input. -/
theorem c4_witness :
    visit_expr (initEnv.set_func "f" (.userFn (.var "x") ["x"])) (.num 0) 6 none
      (.fnCall "f" [.literal (.number (.num 3))]) = .ok (.num 3) none :=
  (c4_scope_replace_then_clear.1 (initEnv.set_func "f" (.userFn (.var "x") ["x"]))
      (.num 0) 5 none "f" [.literal (.number (.num 3))] (.var "x") ["x"]
      [.num 3] none rfl rfl rfl).1 (.num 3) (some [("x", MFloat.num 3)]) rfl

/-- Claim C5 (amended).  With an empty argument list, the builtins `sqrt`,
`sin`, `min` and `max` abort (a Rust panic: `args[0]` out of bounds, or
`.unwrap()` of `None`), and `avg` returns `Ok(NaN)` (sum 0 divided by
count 0) — none of the five produces a reported `Result` error value.
(In the full pipeline such calls are unreachable: `sqrt()` already fails at
parse time with "Expected expression"; the panics are exposed through the
`evaluate(statement, ...)` interface on a directly constructed call.) -/
theorem c5_amended :
    (visit_expr initEnv (.num 0) 5 none (.fnCall "sqrt" []) = .abort) ∧
    (visit_expr initEnv (.num 0) 5 none (.fnCall "sin" []) = .abort) ∧
    (visit_expr initEnv (.num 0) 5 none (.fnCall "min" []) = .abort) ∧
    (visit_expr initEnv (.num 0) 5 none (.fnCall "max" []) = .abort) ∧
    (visit_expr initEnv (.num 0) 5 none (.fnCall "avg" []) = .ok .nan none) :=
  ⟨rfl, rfl, rfl, rfl, rfl⟩

/-- Claim C5 (counterexample).  Evaluating `sqrt` with an empty argument
list does not produce an error result: `resultv` (value-or-error view) is
`none`, i.e. the evaluation aborts, against the claim that it yields a
reported `Result` error. -/
theorem c5_counterexample :
    (visit_stmt_owned 5 Interpreter.new (.expr (.fnCall "sqrt" []))).resultv = none :=
  rfl

/-- Claim C6.  Variable resolution follows exactly the cascade: (1) the
reserved name `ans` yields the last-result register; (2) the active
call-local scope, if present and if it maps the name; (3) the environment's
variable table; failing all three, the error
`Undeclared variable '<name>'`.  The second conjunct: evaluating the
assignment statement `ans = v` with persistence enabled returns `v` and
writes an `ans` entry into the environment, yet a subsequent `ans` lookup
still returns the last-result register, whatever it holds — rule (1) fires
before the environment is consulted. -/
theorem c6_resolution_order :
    (∀ (env : Env) (last : MFloat) (sc : Option Scope) (name : String),
      visit_var env last sc name =
        if name = "ans" then .ok last
        else
          match sc with
          | some s =>
              (match scopeGet s name with
               | some v => .ok v
               | none =>
                   match env.get_var name with
                   | some v => .ok v
                   | none => .error ("Undeclared variable '" ++ name ++ "'"))
          | none =>
              match env.get_var name with
              | some v => .ok v
              | none => .error ("Undeclared variable '" ++ name ++ "'")) ∧
    (∀ (fuel : ℕ) (st : Interpreter) (v last' : MFloat) (sc' : Option Scope),
      st.save_assignments = true →
      (visit_stmt_owned (fuel + 1) st (.varAssign "ans" (.literal (.number v)))
          = .ok v { st with scope := st.scope, env := st.env.set_var "ans" v }) ∧
      visit_var (st.env.set_var "ans" v) last' sc' "ans" = .ok last') := by
  constructor
  · intro env last sc name
    unfold visit_var
    by_cases h : name = "ans"
    · simp [h, Option.or]
    · simp [h]
      cases sc with
      | none => cases hv : env.get_var name <;> simp [Option.or, hv]
      | some s =>
          cases hg : scopeGet s name with
          | none => cases hv : env.get_var name <;> simp [Option.or, hg, hv]
          | some w => simp [Option.or, hg]
  · intro fuel st v last' sc' hsave
    refine ⟨?_, ?_⟩
    · simp [visit_stmt_owned, visit_expr, visit_expr_step, hsave]
    · simp [visit_var, Option.or]

/-- Claim C6 (witness): the resolution-order theorem applied to a concrete
persisted assignment `ans = 7` with a last-result register holding 4. -/
theorem c6_witness :
    (visit_stmt_owned 1 Interpreter.new (.varAssign "ans" (.literal (.number (.num 7))))
        = .ok (.num 7) { Interpreter.new with env := initEnv.set_var "ans" (.num 7) }) ∧
    visit_var (initEnv.set_var "ans" (.num 7)) (.num 4) none "ans" = .ok (.num 4) :=
  c6_resolution_order.2 0 Interpreter.new (.num 7) (.num 4) none rfl

/-- Claim C7.  With `persist = false` (`save_assignments = false`) a
statement evaluation leaves the environment exactly as it was, on the value
and on the error path; the returned value-or-error is identical to the
`persist = true` evaluation of the same statement from the same state; and
regardless of persistence a variable assignment returns the evaluated
value while a function assignment returns the sentinel 1. -/
theorem c7_persist_false_frame :
    ∀ (fuel : ℕ) (st : Interpreter) (s : Stmt), st.save_assignments = false →
      ((∀ v st1, visit_stmt_owned fuel st s = .ok v st1 → st1.env = st.env) ∧
       (∀ m st1, visit_stmt_owned fuel st s = .err m st1 → st1.env = st.env) ∧
       ((visit_stmt_owned fuel st s).resultv =
          (visit_stmt_owned fuel { st with save_assignments := true } s).resultv) ∧
       (∀ name value v sc,
          visit_expr st.env st.last_ans fuel st.scope value = .ok v sc →
          visit_stmt_owned fuel st (.varAssign name value) = .ok v { st with scope := sc }) ∧
       (∀ name ps body,
          visit_stmt_owned fuel st (.fnAssign name ps body) = .ok (.num 1) st)) := by
  intro fuel st s h
  refine ⟨?_, ?_, ?_, ?_, ?_⟩
  · intro v st1 hv
    cases s with
    | varAssign name value =>
        cases hres : visit_expr st.env st.last_ans fuel st.scope value with
        | ok w sc => simp [visit_stmt_owned, hres, h] at hv; simp [← hv.2]
        | err m sc => simp [visit_stmt_owned, hres] at hv
        | abort => simp [visit_stmt_owned, hres] at hv
    | fnAssign name ps body => simp [visit_stmt_owned, h] at hv; simp [← hv.2]
    | expr e =>
        cases hres : visit_expr st.env st.last_ans fuel st.scope e with
        | ok w sc => simp [visit_stmt_owned, hres] at hv; simp [← hv.2]
        | err m sc => simp [visit_stmt_owned, hres] at hv
        | abort => simp [visit_stmt_owned, hres] at hv
  · intro m st1 hv
    cases s with
    | varAssign name value =>
        cases hres : visit_expr st.env st.last_ans fuel st.scope value with
        | ok w sc => simp [visit_stmt_owned, hres, h] at hv
        | err m' sc => simp [visit_stmt_owned, hres] at hv; simp [← hv.2]
        | abort => simp [visit_stmt_owned, hres] at hv
    | fnAssign name ps body => simp [visit_stmt_owned, h] at hv
    | expr e =>
        cases hres : visit_expr st.env st.last_ans fuel st.scope e with
        | ok w sc => simp [visit_stmt_owned, hres] at hv
        | err m' sc => simp [visit_stmt_owned, hres] at hv; simp [← hv.2]
        | abort => simp [visit_stmt_owned, hres] at hv
  · cases s with
    | varAssign name value =>
        cases hres : visit_expr st.env st.last_ans fuel st.scope value with
        | ok w sc => simp [visit_stmt_owned, hres, h, StmtRes.resultv]
        | err m sc => simp [visit_stmt_owned, hres, StmtRes.resultv]
        | abort => simp [visit_stmt_owned, hres, StmtRes.resultv]
    | fnAssign name ps body => simp [visit_stmt_owned, h, StmtRes.resultv]
    | expr e =>
        cases hres : visit_expr st.env st.last_ans fuel st.scope e with
        | ok w sc => simp [visit_stmt_owned, hres, StmtRes.resultv]
        | err m sc => simp [visit_stmt_owned, hres, StmtRes.resultv]
        | abort => simp [visit_stmt_owned, hres, StmtRes.resultv]
  · intro name value v sc hres
    simp [visit_stmt_owned, hres, h]
  · intro name ps body
    simp [visit_stmt_owned, h]

/-- Claim C7 (witness): the frame theorem applied to previewing `x = 9`
from a fresh interpreter, the persistence hypothesis discharged by `rfl`;
the preview returns the same result (`Ok 9`) as the committing run. -/
theorem c7_witness :
    (visit_stmt_owned 1 { Interpreter.new with save_assignments := false }
        (.varAssign "x" (.literal (.number (.num 9))))).resultv =
      (visit_stmt_owned 1 Interpreter.new
        (.varAssign "x" (.literal (.number (.num 9))))).resultv :=
  (c7_persist_false_frame 1 { Interpreter.new with save_assignments := false }
    (.varAssign "x" (.literal (.number (.num 9)))) rfl).2.2.1

/-- Claim C8.  `disp_num` agrees with the spec's four-regime description
(`format_spec`, written from the spec's words) on the (sign, digit string,
exponent) triple for every input and digit count — decimal point inserted
after position `exp` with fractional zeros trimmed for `0 < exp < digits`,
the bare digit string for `exp = digits`, `0.`-zero-padding for
`-digits < exp ≤ 0`, scientific form with suffix `e<exp-1>` otherwise, with
a leading `-` for a negative sign — and every literal case of spec §8
holds through the full conversion pipeline from the exact numeric value. -/
theorem c8_formatter_regimes :
    (∀ (x : MFloat) (digits : ℕ),
      disp_num x digits = some (format_spec (toSignStringExp x digits).1
        (toSignStringExp x digits).2.1 (toSignStringExp x digits).2.2 digits)) ∧
    (disp_num (.num (mkRat 123411 100)) 4 = some "1234") ∧
    (disp_num (.num (mkRat (-123411) 100)) 4 = some "-1234") ∧
    (disp_num (.num (mkRat 1234 100)) 6 = some "12.34") ∧
    (disp_num (.num (mkRat 123 10000)) 4 = some "0.0123") ∧
    (disp_num (.num (mkRat 1234 10000000)) 4 = some "0.0001234") ∧
    (disp_num (.num 12300) 2 = some "1.2e4") ∧
    (disp_num (.num 0) 2 = some "0") ∧
    (disp_num (.num (mkRat 1233 100000)) 3 = some "0.0123") ∧
    (disp_num (.num (mkRat 1233 1000000000)) 3 = some "1.23e-6") ∧
    (disp_num (.num (mkRat 3 10)) 16 = some "0.3") := by
  refine ⟨?_, by decide, by decide, by decide, by decide, by decide, by decide,
    by decide, by decide, by decide, by decide⟩
  intro x digits
  rcases h : toSignStringExp x digits with ⟨sign, str, e?⟩
  cases e? <;> simp [disp_num, format_spec, h, insert_delimeter, trimEnd0]

/-! Fold lemmas for the `min`/`max` builtins (Rust `Iterator::min_by_key` /
`max_by_key` over the `as_ord` total order). -/

theorem foldl_max_mem (xs : List MFloat) (acc : MFloat) :
    xs.foldl (fun a y => if mfLe a y then y else a) acc = acc ∨
    xs.foldl (fun a y => if mfLe a y then y else a) acc ∈ xs := by
  induction xs generalizing acc with
  | nil => exact Or.inl rfl
  | cons y ys ih =>
      rcases ih (if mfLe acc y then y else acc) with h | h
      · by_cases hc : mfLe acc y
        · right
          simp only [List.foldl_cons]
          rw [h]
          simp [hc]
        · left
          simp only [List.foldl_cons]
          rw [h]
          simp [hc]
      · right
        simp only [List.foldl_cons]
        exact List.mem_cons_of_mem _ h

theorem foldl_max_ge_acc (xs : List MFloat) (acc : MFloat) :
    mfLe acc (xs.foldl (fun a y => if mfLe a y then y else a) acc) = true := by
  induction xs generalizing acc with
  | nil => exact mfLe_refl acc
  | cons y ys ih =>
      simp only [List.foldl_cons]
      by_cases hc : mfLe acc y
      · simp only [hc, if_true]
        exact mfLe_trans hc (ih y)
      · simp only [hc, if_false]
        exact ih acc

theorem foldl_max_ge_mem (xs : List MFloat) (acc x : MFloat) (hx : x ∈ xs) :
    mfLe x (xs.foldl (fun a y => if mfLe a y then y else a) acc) = true := by
  induction xs generalizing acc with
  | nil => cases hx
  | cons y ys ih =>
      simp only [List.foldl_cons]
      rcases List.mem_cons.mp hx with h | h
      · subst h
        by_cases hc : mfLe acc x
        · simp only [hc, if_true]
          exact foldl_max_ge_acc ys x
        · simp only [hc, if_false]
          rcases mfLe_total acc x with h1 | h1
          · exact absurd h1 hc
          · exact mfLe_trans h1 (foldl_max_ge_acc ys acc)
      · by_cases hc : mfLe acc y <;> simp only [hc, if_true, if_false] <;> exact ih _ h

theorem foldl_min_le_acc (xs : List MFloat) (acc : MFloat) :
    mfLe (xs.foldl (fun a y => if mfLe a y then a else y) acc) acc = true := by
  induction xs generalizing acc with
  | nil => exact mfLe_refl acc
  | cons y ys ih =>
      simp only [List.foldl_cons]
      by_cases hc : mfLe acc y
      · simp only [hc, if_true]
        exact ih acc
      · simp only [hc, if_false]
        rcases mfLe_total acc y with h1 | h1
        · exact absurd h1 hc
        · exact mfLe_trans (ih y) h1

theorem foldl_min_mem (xs : List MFloat) (acc : MFloat) :
    xs.foldl (fun a y => if mfLe a y then a else y) acc = acc ∨
    xs.foldl (fun a y => if mfLe a y then a else y) acc ∈ xs := by
  induction xs generalizing acc with
  | nil => exact Or.inl rfl
  | cons y ys ih =>
      rcases ih (if mfLe acc y then acc else y) with h | h
      · by_cases hc : mfLe acc y
        · left
          simp only [List.foldl_cons]
          rw [h]
          simp [hc]
        · right
          simp only [List.foldl_cons]
          rw [h]
          simp [hc]
      · right
        simp only [List.foldl_cons]
        exact List.mem_cons_of_mem _ h

theorem foldl_min_le_mem (xs : List MFloat) (acc x : MFloat) (hx : x ∈ xs) :
    mfLe (xs.foldl (fun a y => if mfLe a y then a else y) acc) x = true := by
  induction xs generalizing acc with
  | nil => cases hx
  | cons y ys ih =>
      simp only [List.foldl_cons]
      rcases List.mem_cons.mp hx with h | h
      · subst h
        by_cases hc : mfLe acc x
        · simp only [hc, if_true]
          exact mfLe_trans (foldl_min_le_acc ys acc) hc
        · simp only [hc, if_false]
          exact foldl_min_le_acc ys x
      · by_cases hc : mfLe acc y <;> simp only [hc, if_true, if_false] <;> exact ih _ h

theorem find_first_extremum_max (args : List MFloat) (m : MFloat) (hm : m ∈ args)
    (hall : ∀ x ∈ args, mfLe x m = true) :
    args.find? (fun x => args.all (fun y => mfLe y x)) = some m := by
  have hpm : (fun x => args.all (fun y => mfLe y x)) m = true := by
    simp only [List.all_eq_true]
    intro y hy
    exact hall y hy
  have hex : ∃ x, x ∈ args ∧ (fun x => args.all (fun y => mfLe y x)) x = true :=
    ⟨m, hm, hpm⟩
  rcases hz : args.find? (fun x => args.all (fun y => mfLe y x)) with _ | z
  · rw [List.find?_eq_none] at hz
    exact absurd hpm (by simpa using hz m hm)
  · have hzp := List.find?_some hz
    have hzm := List.mem_of_find?_eq_some hz
    simp only [List.all_eq_true] at hzp
    have h1 : mfLe m z = true := hzp m hm
    have h2 : mfLe z m = true := hall z hzm
    rw [mfLe_antisymm h2 h1]

theorem find_first_extremum_min (args : List MFloat) (m : MFloat) (hm : m ∈ args)
    (hall : ∀ x ∈ args, mfLe m x = true) :
    args.find? (fun x => args.all (fun y => mfLe x y)) = some m := by
  have hpm : (fun x => args.all (fun y => mfLe x y)) m = true := by
    simp only [List.all_eq_true]
    intro y hy
    exact hall y hy
  rcases hz : args.find? (fun x => args.all (fun y => mfLe x y)) with _ | z
  · rw [List.find?_eq_none] at hz
    exact absurd hpm (by simpa using hz m hm)
  · have hzp := List.find?_some hz
    have hzm := List.mem_of_find?_eq_some hz
    simp only [List.all_eq_true] at hzp
    have h1 : mfLe z m = true := hzp m hm
    have h2 : mfLe m z = true := hall z hzm
    rw [mfLe_antisymm h1 h2]

/-- Claim C9.  On a non-empty argument list both `min` and `max` succeed
and return an extremal element of the list under the `as_ord` total order;
and the returned element is the first occurrence of an extremum in the
argument list (`find?` returns the first element that compares extremal
against all others).  Note `max_by_key` keeps the *later* of key-equal
elements, but `as_ord`-equal floats are equal values, so the returned
element coincides with the first occurrence. -/
theorem c9_min_max :
    (∀ args : List MFloat, args ≠ [] →
      (applyBuiltin .max args).isSome = true ∧ (applyBuiltin .min args).isSome = true) ∧
    (∀ (args : List MFloat) (mx : MFloat), args ≠ [] →
      applyBuiltin .max args = some mx →
      mx ∈ args ∧ (∀ x ∈ args, mfLe x mx = true) ∧
      args.find? (fun x => args.all (fun y => mfLe y x)) = some mx) ∧
    (∀ (args : List MFloat) (mn : MFloat), args ≠ [] →
      applyBuiltin .min args = some mn →
      mn ∈ args ∧ (∀ x ∈ args, mfLe mn x = true) ∧
      args.find? (fun x => args.all (fun y => mfLe x y)) = some mn) := by
  refine ⟨?_, ?_, ?_⟩
  · intro args h
    cases args with
    | nil => exact absurd rfl h
    | cons x xs => exact ⟨rfl, rfl⟩
  · intro args mx h hmx
    cases args with
    | nil => exact absurd rfl h
    | cons x xs =>
        simp only [applyBuiltin, maxByOrd, Option.some.injEq] at hmx
        subst hmx
        have hmem : xs.foldl (fun a y => if mfLe a y then y else a) x ∈ x :: xs := by
          rcases foldl_max_mem xs x with h1 | h1
          · rw [h1]; exact List.mem_cons_self _ _
          · exact List.mem_cons_of_mem _ h1
        have hge : ∀ z ∈ x :: xs,
            mfLe z (xs.foldl (fun a y => if mfLe a y then y else a) x) = true := by
          intro z hz
          rcases List.mem_cons.mp hz with h1 | h1
          · subst h1; exact foldl_max_ge_acc xs z
          · exact foldl_max_ge_mem xs x z h1
        exact ⟨hmem, hge, find_first_extremum_max _ _ hmem hge⟩
  · intro args mn h hmn
    cases args with
    | nil => exact absurd rfl h
    | cons x xs =>
        simp only [applyBuiltin, minByOrd, Option.some.injEq] at hmn
        subst hmn
        have hmem : xs.foldl (fun a y => if mfLe a y then a else y) x ∈ x :: xs := by
          rcases foldl_min_mem xs x with h1 | h1
          · rw [h1]; exact List.mem_cons_self _ _
          · exact List.mem_cons_of_mem _ h1
        have hle : ∀ z ∈ x :: xs,
            mfLe (xs.foldl (fun a y => if mfLe a y then a else y) x) z = true := by
          intro z hz
          rcases List.mem_cons.mp hz with h1 | h1
          · subst h1; exact foldl_min_le_acc xs z
          · exact foldl_min_le_mem xs x z h1
        exact ⟨hmem, hle, find_first_extremum_min _ _ hmem hle⟩

/-- Claim C9 (witness): the min/max theorem applied to the concrete list
`[3, 7, 1]`, hypotheses discharged by `decide`. -/
theorem c9_witness :
    (([MFloat.num 3, .num 7, .num 1] : List MFloat) ≠ []) ∧
    ((MFloat.num 7) ∈ [MFloat.num 3, .num 7, .num 1] ∧
      (∀ x ∈ [MFloat.num 3, .num 7, .num 1], mfLe x (.num 7) = true) ∧
      ([MFloat.num 3, .num 7, .num 1].find?
        (fun x => [MFloat.num 3, .num 7, .num 1].all (fun y => mfLe y x))
        = some (.num 7))) ∧
    ((MFloat.num 1) ∈ [MFloat.num 3, .num 7, .num 1] ∧
      (∀ x ∈ [MFloat.num 3, .num 7, .num 1], mfLe (.num 1) x = true) ∧
      ([MFloat.num 3, .num 7, .num 1].find?
        (fun x => [MFloat.num 3, .num 7, .num 1].all (fun y => mfLe x y))
        = some (.num 1))) :=
  ⟨by decide,
   c9_min_max.2.1 [MFloat.num 3, .num 7, .num 1] (.num 7) (by decide) (by decide),
   c9_min_max.2.2 [MFloat.num 3, .num 7, .num 1] (.num 1) (by decide) (by decide)⟩



/-- Claim C10.  Evaluating a division never produces an error: whenever the
two operands evaluate to values, the `/` branch of `visit_binary_expr`
returns `Ok` of the MPFR quotient — including a zero right operand, for
which the quotient is a signed infinity (nonzero dividend) or NaN (0/0);
no error is raised.  The last conjunct runs `"1/0"` through the full
pipeline: result `Ok(+inf)`. -/

theorem c10_division_never_errors :
    (∀ (env : Env) (last : MFloat) (fuel : ℕ) (sc : Option Scope) (e1 e2 : Expr)
        (op : Token) (v1 : MFloat) (sc1 : Option Scope) (v2 : MFloat) (sc2 : Option Scope),
      op.kind = .slash →
      visit_expr env last fuel sc e1 = .ok v1 sc1 →
      visit_expr env last fuel sc1 e2 = .ok v2 sc2 →
      visit_expr env last (fuel + 1) sc (.binary e1 op e2) = .ok (v1.div v2) sc2) ∧
    (∀ a : ℚ, a ≠ 0 → MFloat.div (.num a) (.num 0) = .inf (decide (a < 0))) ∧
    (MFloat.div (.num 0) (.num 0) = .nan) ∧
    ((runLine 64 Interpreter.new "1/0").resultv = some (.ok (.inf false))) := by
  refine ⟨?_, ?_, rfl, by decide⟩
  · intro env last fuel sc e1 e2 op v1 sc1 v2 sc2 hop hv1 hv2
    simp only [visit_expr, visit_expr_step, hv1, hv2]
    simp [applyBinOp, hop]
  · intro a ha
    simp [MFloat.div, ha]


/-- Claim C10 (witness): the division theorem applied to `1 / 0` at
concrete fuel, all hypotheses discharged by `rfl`/`decide`; the result is
`Ok(+inf)`, not an error. -/

theorem c10_witness :
    (visit_expr initEnv (.num 0) 2 none
      (.binary (.literal (.number (.num 1))) ⟨.slash, none, 1, 2⟩
        (.literal (.number (.num 0)))) = .ok (.inf false) none) ∧
    (MFloat.div (.num 1) (.num 0) = .inf (decide ((1 : ℚ) < 0))) :=
  ⟨c10_division_never_errors.1 initEnv (.num 0) 1 none (.literal (.number (.num 1)))
      (.literal (.number (.num 0))) ⟨.slash, none, 1, 2⟩ (.num 1) none (.num 0) none
      rfl rfl rfl,
   c10_division_never_errors.2.1 1 (by decide)⟩
